import Mathlib

/-!
Formal model of the `vue-masonry-css` component (`src/index.js`).

The development shallowly embeds the three pieces of the component that carry
logic: the breakpoint resolver `breakpointValue`, the column distributor
`_getChildItemsInColumnsArray` (with `getShortestColumnIndex`), and the resize
recalculation `reCalculate` / `_reCalculateColumnCount` / `_reCalculateGutterSize`.

JavaScript numbers are modelled as rationals (no claim here depends on binary
floating point); the window width is a rational extended with `Infinity`
(`WithTop`).  JavaScript exceptions are modelled with `Except`.  The model of
`parseInt` covers optional leading whitespace, an optional sign and a decimal
digit prefix; the hexadecimal `0x` form and the exponent-notation stringification
of extreme numbers are not modelled, as no configuration value in the claims
exercises them.
-/

namespace Masonry

/-- Width of the window: a rational, or `⊤` for JavaScript `Infinity`. -/
abbrev Width : Type := WithTop ℚ

/-- Characters skipped by `parseInt` / `Number` before parsing. -/
def isWsChar (c : Char) : Bool :=
  c = ' ' || c = '\t' || c = '\n' || c = '\r'

/-- Drop leading whitespace. -/
def skipWs : List Char → List Char
  | [] => []
  | c :: rest => if isWsChar c then skipWs rest else c :: rest

/-- Numeric value of a list of decimal digits (most significant first). -/
def digitsVal (cs : List Char) : ℕ :=
  cs.foldl (fun acc c => acc * 10 + (c.toNat - 48)) 0

/-- Parse the leading decimal-digit prefix of a character list; `none` when the
list does not start with a digit (this is `parseInt`'s NaN case). -/
def parseDigitsNat (cs : List Char) : Option ℕ :=
  let ds := cs.takeWhile Char.isDigit
  if ds.isEmpty then none else some (digitsVal ds)

/-- Model of JavaScript `parseInt` on a string: skip whitespace, optional sign,
then the longest decimal digit prefix; `none` models `NaN`. -/
def jsParseIntStr (s : String) : Option ℤ :=
  match skipWs s.toList with
  | '-' :: rest => (parseDigitsNat rest).map (fun n => -(n : ℤ))
  | '+' :: rest => (parseDigitsNat rest).map (fun n => (n : ℤ))
  | cs => (parseDigitsNat cs).map (fun n => (n : ℤ))

/-- Model of JavaScript `Number` on the trimmed body of a string (no sign):
`digits`, `digits.digits`, `.digits` or `digits.`; `none` models `NaN`. -/
def parseNumBody (cs : List Char) : Option ℚ :=
  let intPart := cs.takeWhile Char.isDigit
  let rest := cs.dropWhile Char.isDigit
  match rest with
  | [] => if intPart.isEmpty then none else some (mkRat (digitsVal intPart) 1)
  | '.' :: frac =>
      if frac.all Char.isDigit && !(intPart.isEmpty && frac.isEmpty) then
        some (mkRat ((digitsVal intPart : ℤ) * 10 ^ frac.length + (digitsVal frac : ℤ))
          (10 ^ frac.length))
      else none
  | _ => none

/-- Model of JavaScript `Number` on a string: trim whitespace on both sides,
empty string is `0`, otherwise an optionally signed decimal number. -/
def jsNumberStr (s : String) : Option ℚ :=
  let cs := (skipWs (skipWs s.toList).reverse).reverse
  match cs with
  | [] => some 0
  | '-' :: rest => (parseNumBody rest).map (fun q => -q)
  | '+' :: rest => parseNumBody rest
  | _ => parseNumBody cs

/-- Truncation of a rational toward zero: what `parseInt` does to a finite
JavaScript number (via its decimal stringification). -/
def ratTrunc (q : ℚ) : ℤ := Int.tdiv q.num (q.den : ℤ)

/-- JavaScript values, as far as the component's configuration surface needs
them: numbers (modelled as rationals), strings, booleans, `undefined`, `null`,
and plain objects as key/value lists. -/
inductive JSVal where
  | num (q : ℚ)
  | str (s : String)
  | bool (b : Bool)
  | undefined
  | null
  | obj (entries : List (String × JSVal))

/-- Property access `o[k]` on an object's entry list: first entry with the key,
`undefined` when absent. -/
def objGet (entries : List (String × JSVal)) (k : String) : JSVal :=
  match entries.find? (fun e => e.1 == k) with
  | some e => e.2
  | none => JSVal.undefined

/-- JavaScript truthiness of a modelled value. -/
def truthy : JSVal → Bool
  | .num q => decide (q ≠ 0)
  | .str s => !s.isEmpty
  | .bool b => b
  | .undefined => false
  | .null => false
  | .obj _ => true

/-- JavaScript `a || b`. -/
def jsOr (a b : JSVal) : JSVal := if truthy a then a else b

/-- Whether `typeof v === 'object'`; note that this is `true` for `null`. -/
def typeofIsObject : JSVal → Bool
  | .null => true
  | .obj _ => true
  | _ => false

/-- Model of `parseInt(v)` on a modelled value (stringify, then parse);
`none` models `NaN`. -/
def jsParseIntVal : JSVal → Option ℤ
  | .num q => some (ratTrunc q)
  | .str s => jsParseIntStr s
  | _ => none

/-- Model of `Number(v)` on a modelled value; `none` models `NaN`. -/
def jsToNumber : JSVal → Option ℚ
  | .num q => some q
  | .str s => jsNumberStr s
  | .bool b => some (if b then 1 else 0)
  | .null => some 0
  | .undefined => none
  | .obj _ => none

/-- Body of one iteration of the `for (let k in mixed)` loop of
`breakpointValue`: `parseInt` the key, read `mixed[breakpoint]` (note: the
lookup key is the stringification of the parsed integer, not the original
key), and `parseInt`-check that raw value.  `none` models the `continue`. -/
def candOf (entries : List (String × JSVal)) (k : String) : Option (ℤ × JSVal) :=
  match jsParseIntStr k with
  | none => none
  | some bp =>
      let raw := objGet entries (toString bp)
      match jsParseIntVal raw with
      | none => none
      | some _ => some (bp, raw)

/-- The `for (let k in mixed)` loop of `breakpointValue`, tracking
`matchedBreakpoint` (initially `Infinity`, i.e. `⊤`) and `matchedValue`.
The result does not depend on the enumeration order of the keys (ties on the
parsed breakpoint produce the identical looked-up raw value), so the entry
list is folded in order. -/
def bpFold (entries : List (String × JSVal)) (windowWidth : Width) :
    List (String × JSVal) → WithTop ℤ → JSVal → JSVal
  | [], _, mv => mv
  | e :: rest, mb, mv =>
      match candOf entries e.1 with
      | none => bpFold entries windowWidth rest mb mv
      | some (bp, raw) =>
          if windowWidth ≤ ((bp : ℚ) : Width) ∧ (bp : WithTop ℤ) < mb then
            bpFold entries windowWidth rest (bp : WithTop ℤ) raw
          else
            bpFold entries windowWidth rest mb mv

/-- The `breakpointValue(mixed, windowWidth)` function of `src/index.js`.
`Except` models a thrown `TypeError`: when `mixed` is `null` the guard
`typeof mixed !== 'object'` does not fire (`typeof null === 'object'`) and the
subsequent `mixed.default` access throws. -/
def breakpointValue (mixed : JSVal) (windowWidth : Width) : Except String JSVal :=
  if (match jsParseIntVal mixed with
      | some n => decide (-1 < n)
      | none => false) then
    .ok mixed
  else if !typeofIsObject mixed then
    .ok (.num 0)
  else
    match mixed with
    | .obj entries =>
        .ok (bpFold entries windowWidth entries ⊤ (jsOr (objGet entries "default") (.num 0)))
    | _ => .error "TypeError"

/-- Accumulator of the `getShortestColumnIndex` scan: `none` while `trgHeight`
is still `undefined`, otherwise the current `(trgIndex, trgHeight)`. -/
def gsciAux : List ℤ → ℕ → Option (ℕ × ℤ) → Option ℕ
  | [], _, acc => acc.map Prod.fst
  | h :: rest, i, acc =>
      match acc with
      | none => gsciAux rest (i + 1) (some (i, h))
      | some (ti, th) =>
          if h < th then gsciAux rest (i + 1) (some (i, h))
          else gsciAux rest (i + 1) (some (ti, th))

/-- The `getShortestColumnIndex(heights)` function of `src/index.js`: index of
the first strict minimum of the list, `none` (JavaScript `undefined`) on the
empty list. -/
def getShortestColumnIndex (heights : List ℤ) : Option ℕ :=
  gsciAux heights 0 none

/-- A Vue virtual node, as far as the distributor inspects it: its `tag`
(`none` models `undefined`, e.g. for text/whitespace nodes), its mounted
element `elm` modelled by the element's `offsetHeight`, an integer pixel count
(`none` when not yet rendered), and its `componentOptions` as an optional pair of the component
tag and the list of component children. -/
inductive VNode where
  | mk (tag : Option String) (elm : Option ℤ)
      (componentOptions : Option (Option String × List VNode))

/-- The `tag` field of a virtual node. -/
def VNode.tag : VNode → Option String
  | .mk t _ _ => t

/-- The `elm` field of a virtual node, modelled by `elm.offsetHeight`. -/
def VNode.elm : VNode → Option ℤ
  | .mk _ e _ => e

/-- The `componentOptions` field of a virtual node. -/
def VNode.componentOptions : VNode → Option (Option String × List VNode)
  | .mk _ _ c => c

/-- Truthiness of `child.tag` (the `vnodes.filter(child => child.tag)` test):
present and non-empty. -/
def tagTruthy : Option String → Bool
  | none => false
  | some s => !s.isEmpty

/-- JavaScript array element assignment `arr[i] = v`: in-place when `i` is in
range, otherwise the array is extended with holes (`none`) up to index `i`.
This models `columns[colIndex] = []` on the initially empty `columns` array. -/
def jsSet {α : Type} : List (Option α) → ℕ → α → List (Option α)
  | [], 0, v => [some v]
  | [], i + 1, v => none :: jsSet [] i v
  | _ :: rest, 0, v => some v :: rest
  | x :: rest, i + 1, v => x :: jsSet rest i v

/-- Reading `columns[j]`: `none` for a hole or an out-of-range index. -/
def colAt {α : Type} (cols : List (Option (List α))) (j : ℕ) : Option (List α) :=
  (cols.get? j).getD none

/-- The bucket at column `j`, reading a hole or missing column as empty. -/
def bucketAt {α : Type} (cols : List (Option (List α))) (j : ℕ) : List α :=
  (colAt cols j).getD []

/-- The `if (!columns[colIndex]) columns[colIndex] = []; columns[colIndex].push(vnode)`
step: create the bucket when the slot is a hole, then append. -/
def pushAt (cols : List (Option (List VNode))) (i : ℕ) (v : VNode) :
    List (Option (List VNode)) :=
  jsSet cols i (bucketAt cols i ++ [v])

/-- The `heights[colIndex] += vnode.elm.offsetHeight` step. -/
def addAt (heights : List ℤ) (i : ℕ) (x : ℤ) : List ℤ :=
  heights.set i (heights.getD i 0 + x)

/-- The local state of `_getChildItemsInColumnsArray`: the `columns` array
(with possible holes) and the `heights` accumulator array. -/
structure DistState where
  columns : List (Option (List VNode))
  heights : List ℤ

/-- The transition-group special case of `_getChildItemsInColumnsArray`: when
the first child is a `<transition-group>` component, the whole child list is
replaced by that component's children. -/
def unwrapTransitionGroup : List VNode → List VNode
  | [] => []
  | v :: rest =>
      match v.componentOptions with
      | some (ctag, cs) =>
          if ctag = some "transition-group" then cs else v :: rest
      | none => v :: rest

/-- The `vnodes.forEach((vnode, index) => ...)` loop of
`_getChildItemsInColumnsArray`, with `index` threaded explicitly.  The
`getShortestColumnIndex = none` case can only occur when `heights` is empty
(`displayColumns = 0`, where the JavaScript degenerates to `NaN` indices); the
claims only concern `displayColumns ≥ 1`, where that branch is unreachable. -/
def childItemsAux (fillGaps : Bool) (cc : ℕ) :
    List VNode → ℕ → DistState → DistState
  | [], _, st => st
  | v :: rest, idx, st =>
      match fillGaps, v.elm with
      | true, some hgt =>
          match getShortestColumnIndex st.heights with
          | some ci =>
              childItemsAux fillGaps cc rest (idx + 1)
                ⟨pushAt st.columns ci v, addAt st.heights ci hgt⟩
          | none =>
              childItemsAux fillGaps cc rest (idx + 1)
                ⟨pushAt st.columns (idx % cc) v, st.heights⟩
      | _, _ =>
          childItemsAux fillGaps cc rest (idx + 1)
            ⟨pushAt st.columns (idx % cc) v, st.heights⟩

/-- The `_getChildItemsInColumnsArray` method of `src/index.js`, for a positive
integer `displayColumns` (written without the leading underscore): unwrap a
leading transition-group, filter children with a truthy tag, then distribute.
As a pure function of its inputs it is deterministic by construction. -/
def getChildItemsInColumnsArray (slots : List VNode) (displayColumns : ℕ)
    (fillGaps : Bool) : List (Option (List VNode)) :=
  let vnodes := unwrapTransitionGroup slots
  let filtered := vnodes.filter (fun v => tagTruthy v.tag)
  (childItemsAux fillGaps displayColumns filtered 0
    ⟨[], List.replicate displayColumns 0⟩).columns

/-- The component's reactive state, as touched by `reCalculate`:
`windowWidth` (`none` models the initially undefined `this.windowWidth`),
`displayColumns` and `displayGutter`. -/
structure MasonryState where
  windowWidth : Option Width
  displayColumns : ℚ
  displayGutter : JSVal

/-- The `data()` of the component: `displayColumns: 2, displayGutter: 0`
(and `this.windowWidth` not yet set). -/
def initialData : MasonryState :=
  { windowWidth := none, displayColumns := 2, displayGutter := JSVal.num 0 }

/-- Outcome of one `reCalculate` call: the state after the call, whether the
early-return guard was passed (reaching the reactive writes that trigger a
host re-render), and a thrown exception if one propagated out. -/
structure RecalcResult where
  state : MasonryState
  recalculated : Bool
  error : Option String

/-- The width actually recorded by `reCalculate`:
`(window ? window.innerWidth : null) || Infinity`.  `none` models a host
without a window; an `innerWidth` of `0` is falsy and also yields `Infinity`. -/
def effWidth : Option ℚ → Width
  | none => ⊤
  | some w => if w = 0 then ⊤ else (w : Width)

/-- JavaScript `Number(v) || 0`: `NaN` and `0` collapse to `0`. -/
def numOr0 (v : JSVal) : ℚ :=
  match jsToNumber v with
  | none => 0
  | some q => if q = 0 then 0 else q

/-- The `reCalculate` method of `src/index.js`, with
`_reCalculateColumnCount` and `_reCalculateGutterSize` inlined in call order:
record the new width, return early when it equals the previous one, otherwise
set `displayColumns := Math.max(1, Number(breakpointValue(cols, w)) || 0)` and
`displayGutter := breakpointValue(gutter, w)`.  A thrown `TypeError` leaves the
writes that follow it unperformed, as in JavaScript. -/
def reCalculate (cols gutter : JSVal) (st : MasonryState) (innerWidth : Option ℚ) :
    RecalcResult :=
  let ww := effWidth innerWidth
  let st1 := { st with windowWidth := some ww }
  if st.windowWidth = some ww then
    { state := st1, recalculated := false, error := none }
  else
    match breakpointValue cols ww with
    | .error e => { state := st1, recalculated := true, error := some e }
    | .ok rawCols =>
        let st2 := { st1 with displayColumns := max 1 (numOr0 rawCols) }
        match breakpointValue gutter ww with
        | .error e => { state := st2, recalculated := true, error := some e }
        | .ok g =>
            { state := { st2 with displayGutter := g }, recalculated := true,
              error := none }

/-!
Specification-side definitions.  The definitions below are written from the
words of the specification and of the claims (not from the source), to be
compared with the source-side functions above.
-/

/-- Minimum value of a list (spec side). -/
def olistMin {α : Type} [LinearOrder α] : List α → Option α
  | [] => none
  | a :: l => some (match olistMin l with | none => a | some m => min a m)

/-- Index of the first minimum of a list, scanning left to right (spec side:
"the column currently holding the minimum accumulated height, ties broken by
lowest column index"). -/
def firstMinIdx : List ℤ → ℕ
  | [] => 0
  | a :: rest =>
      match olistMin rest with
      | none => 0
      | some m => if a ≤ m then 0 else firstMinIdx rest + 1

/-- One distribution step in gap-filling mode, from the claim's words: a child
with a measured height goes to the first column of minimal accumulated height
and that accumulator grows by exactly the measured height; a child without one
goes to column `index mod columnCount` with no accumulator update. -/
def specFillStep (cc : ℕ) (st : DistState) (p : ℕ × VNode) : DistState :=
  match p.2.elm with
  | some hgt =>
      let ci := firstMinIdx st.heights
      ⟨pushAt st.columns ci p.2, addAt st.heights ci hgt⟩
  | none => ⟨pushAt st.columns (p.1 % cc) p.2, st.heights⟩

/-- Gap-filling distribution from the claim's words: fold `specFillStep` over
the enumerated children, starting from accumulators all zero. -/
def specDistributeFill (cc : ℕ) (l : List VNode) : DistState :=
  l.enum.foldl (specFillStep cc) ⟨[], List.replicate cc 0⟩

/-- Round-robin bucket from the claim's words: the children whose filtered
position is congruent to `j` modulo `columnCount`, in input order. -/
def rrBucket (l : List VNode) (cc j : ℕ) : List VNode :=
  (l.enum.filter (fun p => p.1 % cc = j)).map Prod.snd

/-- An entry kept by the claim's description of resolution: its key parses as
an integer and its own associated value parses as a number (both in the
`parseInt` sense used throughout the function). -/
def claimValid (e : String × JSVal) : Bool :=
  (jsParseIntStr e.1).isSome && (jsParseIntVal e.2).isSome

/-- The parsed integer key of a kept entry. -/
def claimKey (e : String × JSVal) : ℤ :=
  (jsParseIntStr e.1).getD 0

/-- The kept entries whose key is `≥ width`. -/
def claimMatches (entries : List (String × JSVal)) (W : Width) :
    List (String × JSVal) :=
  (entries.filter claimValid).filter
    (fun e => decide (W ≤ ((claimKey e : ℚ) : Width)))

/-- Resolution as the claim states it: among the kept entries with key
`≥ width`, the raw associated value of the one with the smallest key
(`none` when no entry matches). -/
def specC1Resolve (entries : List (String × JSVal)) (W : Width) : Option JSVal :=
  match olistMin ((claimMatches entries W).map claimKey) with
  | none => none
  | some m => ((claimMatches entries W).find? (fun e => claimKey e == m)).map Prod.snd

/-- A key is canonical when either it does not `parseInt`, or it is exactly
the decimal string of its parsed integer (so the `mixed[parseInt(k)]` lookup
hits the entry itself). -/
def canonicalKey (k : String) : Bool :=
  match jsParseIntStr k with
  | none => true
  | some n => toString n == k

/-- Candidates produced while folding `l` with current best bound `mb`:
the surviving loop iterations whose breakpoint is `≥ width` and `< mb`. -/
def cands (entries : List (String × JSVal)) (W : Width)
    (l : List (String × JSVal)) (mb : WithTop ℤ) : List (ℤ × JSVal) :=
  (l.filterMap (fun e => candOf entries e.1)).filter
    (fun c => decide (W ≤ ((c.1 : ℚ) : Width)) && decide ((c.1 : WithTop ℤ) < mb))

/-- The winning candidate: the first one carrying the minimal breakpoint. -/
def candMin (entries : List (String × JSVal)) (W : Width)
    (l : List (String × JSVal)) (mb : WithTop ℤ) : Option (ℤ × JSVal) :=
  match olistMin ((cands entries W l mb).map Prod.fst) with
  | none => none
  | some m => (cands entries W l mb).find? (fun c => c.1 == m)

/-!
Concrete children used in the end-to-end examples of the claims.
-/

/-- The unwrap condition of the transition-group special case:
`vnode.componentOptions && vnode.componentOptions.tag === 'transition-group'`. -/
def isTGWrapper (v : VNode) : Bool :=
  match v.componentOptions with
  | some (ctag, _) => ctag == some "transition-group"
  | none => false

/-- An unmeasured child with the given tag. -/
def cn (name : String) : VNode := VNode.mk (some name) none none

/-- A measured child with the given tag and offset height. -/
def cm (name : String) (h : ℤ) : VNode := VNode.mk (some name) (some h) none

/-- Six plain children `c0 .. c5`. -/
def exSix : List VNode :=
  [cn "c0", cn "c1", cn "c2", cn "c3", cn "c4", cn "c5"]

/-- Three measured children with heights 5, 1, 1. -/
def exFill : List VNode := [cm "c0" 5, cm "c1" 1, cm "c2" 1]

/-!
Helper lemmas.
-/

/-- Every branch of `reCalculate` records the new effective width. -/
theorem reCalculate_windowWidth (cols gutter : JSVal) (st : MasonryState)
    (iw : Option ℚ) :
    (reCalculate cols gutter st iw).state.windowWidth = some (effWidth iw) := by
  simp only [reCalculate]
  split
  · rfl
  · split
    · rfl
    · split <;> rfl

/-- Rewriting the `windowWidth` field to the value it already has is the
identity. -/
theorem setWindowWidth_self (st : MasonryState) (w : Width)
    (h : st.windowWidth = some w) : { st with windowWidth := some w } = st := by
  cases st
  simp_all

/-- Reading a slot after a JavaScript array assignment: the written index holds
the new value, all other indices are unchanged (holes created by the extension
read as `none`, like out-of-range indices did before). -/
theorem colAt_jsSet {β : Type} :
    ∀ (i : ℕ) (l : List (Option (List β))) (j : ℕ) (v : List β),
      colAt (jsSet l i v) j = if j = i then some v else colAt l j := by
  intro i
  induction i with
  | zero =>
      intro l j v
      cases l <;> cases j <;> simp [jsSet, colAt]
  | succ i ih =>
      intro l j v
      cases l with
      | nil =>
          cases j with
          | zero => simp [jsSet, colAt]
          | succ j => simpa [jsSet, colAt] using ih [] j v
      | cons x rest =>
          cases j with
          | zero => simp [jsSet, colAt]
          | succ j => simpa [jsSet, colAt] using ih rest j v

/-- Length after a JavaScript array assignment. -/
theorem length_jsSet {β : Type} :
    ∀ (i : ℕ) (l : List (Option β)) (v : β),
      (jsSet l i v).length = max l.length (i + 1) := by
  intro i
  induction i with
  | zero => intro l v; cases l <;> simp [jsSet]
  | succ i ih =>
      intro l v
      cases l with
      | nil => simp [jsSet, ih]
      | cons x rest => simp [jsSet, ih]; omega

/-- Buckets after a push: only the pushed column changes, by appending. -/
theorem bucketAt_pushAt (cols : List (Option (List VNode))) (i j : ℕ) (v : VNode) :
    bucketAt (pushAt cols i v) j =
      if j = i then bucketAt cols i ++ [v] else bucketAt cols j := by
  simp only [bucketAt, pushAt, colAt_jsSet]
  split
  · rfl
  · rfl

/-- Length after a push. -/
theorem length_pushAt (cols : List (Option (List VNode))) (i : ℕ) (v : VNode) :
    (pushAt cols i v).length = max cols.length (i + 1) :=
  length_jsSet i cols _

/-- `olistMin` returns `some` exactly on non-empty lists, and characterises
the minimum value. -/
theorem olistMin_eq_some_iff {α : Type} [LinearOrder α] :
    ∀ (l : List α) (m : α), olistMin l = some m ↔ m ∈ l ∧ ∀ x ∈ l, m ≤ x := by
  intro l
  induction l with
  | nil => intro m; simp [olistMin]
  | cons a l ih =>
      intro m
      cases hl : olistMin l with
      | none =>
          have hnil : l = [] := by
            cases l with
            | nil => rfl
            | cons b t => simp [olistMin] at hl
          subst hnil
          constructor
          · intro h
            have ham : a = m := by simpa [olistMin] using h
            subst ham
            exact ⟨by simp, by simp⟩
          · rintro ⟨h1, _⟩
            have hma : m = a := by simpa using h1
            subst hma
            simp [olistMin]
      | some m0 =>
          obtain ⟨hmem, hmin⟩ := (ih m0).mp hl
          have hcons : olistMin (a :: l) = some (min a m0) := by
            simp [olistMin, hl]
          rw [hcons]
          constructor
          · intro h
            have hm : min a m0 = m := by injection h
            subst hm
            refine ⟨?_, ?_⟩
            · rcases le_total a m0 with hle | hle
              · rw [min_eq_left hle]; exact List.mem_cons_self a l
              · rw [min_eq_right hle]; exact List.mem_cons_of_mem a hmem
            · intro x hx
              rcases List.mem_cons.mp hx with hxa | hx
              · rw [hxa]; exact min_le_left a m0
              · exact le_trans (min_le_right a m0) (hmin x hx)
          · rintro ⟨hmem2, hmin2⟩
            have h1 : m ≤ a := hmin2 a (List.mem_cons_self a l)
            have h2 : m ≤ m0 := hmin2 m0 (List.mem_cons_of_mem a hmem)
            have h3 : min a m0 ≤ m := by
              rcases List.mem_cons.mp hmem2 with hma | hx
              · rw [hma]; exact min_le_left a m0
              · exact le_trans (min_le_right a m0) (hmin m hx)
            exact congrArg some (le_antisymm h3 (le_min h1 h2))

/-- A list with a minimum is non-empty. -/
theorem ne_nil_of_olistMin {α : Type} [LinearOrder α] {l : List α} {m : α}
    (h : olistMin l = some m) : l ≠ [] := by
  cases l with
  | nil => simp [olistMin] at h
  | cons a l => simp

/-- Characterisation of the `getShortestColumnIndex` scan when started from a
current best `(ti, th)`: the result moves to the first minimum of the
remaining list exactly when that minimum strictly beats `th`. -/
theorem gsciAux_some :
    ∀ (l : List ℤ) (i ti : ℕ) (th : ℤ),
      gsciAux l i (some (ti, th)) =
        some (match olistMin l with
          | none => ti
          | some m => if m < th then i + firstMinIdx l else ti) := by
  intro l
  induction l with
  | nil => intro i ti th; rfl
  | cons a l ih =>
      intro i ti th
      show (if a < th then gsciAux l (i + 1) (some (i, a))
            else gsciAux l (i + 1) (some (ti, th))) = _
      rw [ih, ih]
      cases hl : olistMin l with
      | none =>
          have hnil : l = [] := by
            cases l with
            | nil => rfl
            | cons b l => simp [olistMin] at hl
          subst hnil
          simp only [olistMin, firstMinIdx]
          by_cases hath : a < th <;> simp [hath]
      | some m =>
          simp only [olistMin, hl, firstMinIdx]
          by_cases hath : a < th
          · simp only [if_pos hath]
            have hmin : min a m < th := lt_of_le_of_lt (min_le_left a m) hath
            simp only [if_pos hmin]
            by_cases hma : m < a
            · have hnle : ¬ a ≤ m := not_le.mpr hma
              simp only [if_pos hma, if_neg hnle]
              refine congrArg some ?_
              show i + 1 + firstMinIdx l = i + (firstMinIdx l + 1)
              omega
            · have hle : a ≤ m := not_lt.mp hma
              simp only [if_neg hma, if_pos hle]
              refine congrArg some ?_
              show i = i + 0
              omega
          · have hth : th ≤ a := not_lt.mp hath
            simp only [if_neg hath]
            by_cases hmth : m < th
            · have hmin : min a m < th := lt_of_le_of_lt (min_le_right a m) hmth
              have hnle : ¬ a ≤ m := by omega
              simp only [if_pos hmth, if_pos hmin, if_neg hnle]
              refine congrArg some ?_
              show i + 1 + firstMinIdx l = i + (firstMinIdx l + 1)
              omega
            · have hmin : ¬ min a m < th := by
                rcases min_cases a m with ⟨hm, _⟩ | ⟨hm, _⟩ <;> rw [hm] <;> omega
              simp only [if_neg hmth, if_neg hmin]

/-- On a non-empty heights list, the source scan returns exactly the index of
the first minimum. -/
theorem gsci_eq_firstMinIdx (l : List ℤ) (h : l ≠ []) :
    getShortestColumnIndex l = some (firstMinIdx l) := by
  cases l with
  | nil => exact absurd rfl h
  | cons a l =>
      show gsciAux l 1 (some (0, a)) = _
      rw [gsciAux_some]
      cases hl : olistMin l with
      | none => simp [firstMinIdx, hl]
      | some m =>
          simp only [firstMinIdx, hl]
          by_cases hma : m < a
          · have hnle : ¬ a ≤ m := not_le.mpr hma
            simp only [if_pos hma, if_neg hnle]
            refine congrArg some ?_
            show 1 + firstMinIdx l = firstMinIdx l + 1
            omega
          · have hle : a ≤ m := not_lt.mp hma
            simp only [if_neg hma, if_pos hle]

/-- The first-minimum index is in range on a non-empty list. -/
theorem firstMinIdx_lt_length : ∀ (l : List ℤ), l ≠ [] → firstMinIdx l < l.length := by
  intro l
  induction l with
  | nil => intro h; exact absurd rfl h
  | cons a l ih =>
      intro _
      simp only [firstMinIdx]
      cases hl : olistMin l with
      | none => simp
      | some m =>
          have hne : l ≠ [] := ne_nil_of_olistMin hl
          by_cases hle : a ≤ m
          · simp [hle]
          · simpa [hle] using ih hne

/-- Round-robin distribution, bucket view: folding the remaining children
from index `idx` appends to bucket `j` exactly the children whose index is
congruent to `j` modulo `cc`, in order. -/
theorem aux_false_bucket (cc j : ℕ) :
    ∀ (l : List VNode) (idx : ℕ) (st : DistState),
      bucketAt (childItemsAux false cc l idx st).columns j =
        bucketAt st.columns j ++
          ((List.enumFrom idx l).filter (fun p => p.1 % cc = j)).map Prod.snd := by
  intro l
  induction l with
  | nil => intro idx st; simp [childItemsAux, List.enumFrom]
  | cons v rest ih =>
      intro idx st
      have hstep : childItemsAux false cc (v :: rest) idx st =
          childItemsAux false cc rest (idx + 1)
            ⟨pushAt st.columns (idx % cc) v, st.heights⟩ := rfl
      rw [hstep, ih]
      rw [show List.enumFrom idx (v :: rest) =
        (idx, v) :: List.enumFrom (idx + 1) rest from rfl]
      rw [List.filter_cons]
      by_cases hmod : idx % cc = j
      · rw [if_pos (by simpa using hmod)]
        have hpush := bucketAt_pushAt st.columns (idx % cc) j v
        rw [if_pos hmod.symm] at hpush
        rw [hpush, hmod]
        simp
      · rw [if_neg (by simpa using hmod)]
        have hpush := bucketAt_pushAt st.columns (idx % cc) j v
        rw [if_neg (fun h => hmod h.symm)] at hpush
        rw [hpush]

/-- The columns array never grows past `cc` slots (each assigned index is
`< cc`, whether round-robin or shortest-column). -/
theorem aux_columns_le (fg : Bool) (cc : ℕ) (hcc : 0 < cc) :
    ∀ (l : List VNode) (idx : ℕ) (st : DistState),
      st.columns.length ≤ cc → st.heights.length = cc →
      (childItemsAux fg cc l idx st).columns.length ≤ cc := by
  intro l
  induction l with
  | nil => intro idx st h _; exact h
  | cons v rest ih =>
      intro idx st hcols hh
      have hmodlt := Nat.mod_lt idx hcc
      cases fg with
      | false =>
          have hstep : childItemsAux false cc (v :: rest) idx st =
              childItemsAux false cc rest (idx + 1)
                ⟨pushAt st.columns (idx % cc) v, st.heights⟩ := rfl
          rw [hstep]
          refine ih (idx + 1) _ ?_ hh
          rw [length_pushAt]
          omega
      | true =>
          cases hv : v.elm with
          | none =>
              have hstep : childItemsAux true cc (v :: rest) idx st =
                  childItemsAux true cc rest (idx + 1)
                    ⟨pushAt st.columns (idx % cc) v, st.heights⟩ := by
                simp [childItemsAux, hv]
              rw [hstep]
              refine ih (idx + 1) _ ?_ hh
              rw [length_pushAt]
              omega
          | some hgt =>
              have hne : st.heights ≠ [] := by
                intro h0
                rw [h0] at hh
                simp at hh
                omega
              have hg := gsci_eq_firstMinIdx st.heights hne
              have hstep : childItemsAux true cc (v :: rest) idx st =
                  childItemsAux true cc rest (idx + 1)
                    ⟨pushAt st.columns (firstMinIdx st.heights) v,
                      addAt st.heights (firstMinIdx st.heights) hgt⟩ := by
                simp [childItemsAux, hv, hg]
              rw [hstep]
              have hlt : firstMinIdx st.heights < cc := by
                have := firstMinIdx_lt_length st.heights hne
                omega
              refine ih (idx + 1) _ ?_ ?_
              · rw [length_pushAt]
                omega
              · simp [addAt, hh]

/-- Round-robin distribution, length view: starting from a columns array of
length `min idx cc`, the final length is `min (idx + remaining) cc`. -/
theorem aux_false_length (cc : ℕ) (hcc : 0 < cc) :
    ∀ (l : List VNode) (idx : ℕ) (st : DistState),
      st.columns.length = min idx cc →
      (childItemsAux false cc l idx st).columns.length = min (idx + l.length) cc := by
  intro l
  induction l with
  | nil => intro idx st h; simpa using h
  | cons v rest ih =>
      intro idx st h
      have hstep : childItemsAux false cc (v :: rest) idx st =
          childItemsAux false cc rest (idx + 1)
            ⟨pushAt st.columns (idx % cc) v, st.heights⟩ := rfl
      have hnew : (pushAt st.columns (idx % cc) v).length = min (idx + 1) cc := by
        rw [length_pushAt, h]
        rcases Nat.lt_or_ge idx cc with hlt | hge
        · rw [Nat.mod_eq_of_lt hlt]
          omega
        · have := Nat.mod_lt idx hcc
          omega
      have hlen : idx + (v :: rest).length = (idx + 1) + rest.length := by
        simp [List.length_cons]
        omega
      rw [hstep, hlen]
      exact ih (idx + 1) _ hnew

/-- A non-`null` value never makes `breakpointValue` throw. -/
theorem breakpointValue_ok_of_ne_null (mixed : JSVal) (W : Width)
    (h : mixed ≠ .null) : ∃ v, breakpointValue mixed W = .ok v := by
  cases mixed with
  | null => exact absurd rfl h
  | obj entries =>
      exact ⟨bpFold entries W entries ⊤ (jsOr (objGet entries "default") (.num 0)),
        by simp [breakpointValue, jsParseIntVal, typeofIsObject]⟩
  | num q =>
      by_cases hq : -1 < ratTrunc q
      · exact ⟨.num q, by simp [breakpointValue, jsParseIntVal, hq]⟩
      · exact ⟨.num 0, by simp [breakpointValue, jsParseIntVal, hq, typeofIsObject]⟩
  | str s =>
      cases hps : jsParseIntStr s with
      | none => exact ⟨.num 0, by simp [breakpointValue, jsParseIntVal, hps, typeofIsObject]⟩
      | some n =>
          by_cases hn : -1 < n
          · exact ⟨.str s, by simp [breakpointValue, jsParseIntVal, hps, hn]⟩
          · exact ⟨.num 0, by simp [breakpointValue, jsParseIntVal, hps, hn, typeofIsObject]⟩
  | bool b => exact ⟨.num 0, by simp [breakpointValue, jsParseIntVal, typeofIsObject]⟩
  | undefined => exact ⟨.num 0, by simp [breakpointValue, jsParseIntVal, typeofIsObject]⟩

/-- When the scalar guard `parseInt(mixed) > -1` holds, `breakpointValue`
returns its input unchanged. -/
theorem breakpointValue_pass (mixed : JSVal) (W : Width) (n : ℤ)
    (hp : jsParseIntVal mixed = some n) (hn : -1 < n) :
    breakpointValue mixed W = .ok mixed := by
  simp [breakpointValue, hp, hn]

/-!
Claim theorems.
-/

/-- C10: the transition-group unwrap inspects only the first child node; when
the first child is a `<transition-group>` wrapper the whole child list is
replaced by the wrapper's own children (the siblings `rest` do not occur in
the result), and when the first child is not such a wrapper the list is kept
as is, regardless of what follows. -/
theorem c10_unwrap_first_child_only :
    (∀ (t : Option String) (e : Option ℤ) (cs rest : List VNode),
        unwrapTransitionGroup (VNode.mk t e (some (some "transition-group", cs)) :: rest) = cs)
    ∧ (∀ (v : VNode) (rest : List VNode), isTGWrapper v = false →
        unwrapTransitionGroup (v :: rest) = v :: rest) := by
  constructor
  · intro t e cs rest
    simp [unwrapTransitionGroup, VNode.componentOptions]
  · intro v rest h
    cases v with
    | mk t e co =>
        cases co with
        | none => simp [unwrapTransitionGroup, VNode.componentOptions]
        | some p =>
            obtain ⟨ctag, cs⟩ := p
            simp only [isTGWrapper, VNode.componentOptions] at h
            rw [beq_eq_false_iff_ne] at h
            simp [unwrapTransitionGroup, VNode.componentOptions, h]

/-- Witness for C10 at a concrete input: a first child that is not a
transition-group wrapper leaves the list unchanged. -/
theorem c10_witness :
    unwrapTransitionGroup [cn "x", cn "y"] = [cn "x", cn "y"] :=
  c10_unwrap_first_child_only.2 (cn "x") [cn "y"] rfl

/-- C9: a `reCalculate` call whose recorded width equals the incoming
effective width is a no-op — the state is unchanged (in particular
`displayColumns` and `displayGutter`), the early-return guard fires, and no
reactive write (re-render request) happens; in particular the second of two
consecutive calls with the same width is such a no-op. -/
theorem c9_reCalculate_same_width_noop :
    (∀ (cols gutter : JSVal) (st : MasonryState) (iw : Option ℚ),
        st.windowWidth = some (effWidth iw) →
        reCalculate cols gutter st iw =
          { state := st, recalculated := false, error := none })
    ∧ (∀ (cols gutter : JSVal) (st : MasonryState) (iw : Option ℚ),
        reCalculate cols gutter (reCalculate cols gutter st iw).state iw =
          { state := (reCalculate cols gutter st iw).state,
            recalculated := false, error := none }) := by
  have noop : ∀ (cols gutter : JSVal) (st : MasonryState) (iw : Option ℚ),
      st.windowWidth = some (effWidth iw) →
      reCalculate cols gutter st iw =
        { state := st, recalculated := false, error := none } := by
    intro cols gutter st iw h
    simp only [reCalculate, if_pos h]
    rw [setWindowWidth_self st _ h]
  exact ⟨noop, fun cols gutter st iw =>
    noop cols gutter _ iw (reCalculate_windowWidth cols gutter st iw)⟩

/-- Witness for C9 at a concrete input: after a first call at width 800, a
second call at the same width leaves the state untouched and does not
recalculate. -/
theorem c9_witness :
    reCalculate (JSVal.num 3) (JSVal.num 0)
        (reCalculate (JSVal.num 3) (JSVal.num 0) initialData (some 800)).state
        (some 800) =
      { state := (reCalculate (JSVal.num 3) (JSVal.num 0) initialData (some 800)).state,
        recalculated := false, error := none } :=
  c9_reCalculate_same_width_noop.2 (JSVal.num 3) (JSVal.num 0) initialData (some 800)

/-- C6 (amended): `displayColumns` starts at 2 and every run of the
recalculation keeps it a number `≥ 1` (degenerate resolved values — 0,
negative, NaN, non-numeric — are coerced up to 1 by
`Math.max(1, Number(x) || 0)`); it is however not necessarily an integer,
see the counterexample. -/
theorem c6_displayColumns_ge_one :
    1 ≤ initialData.displayColumns ∧
    ∀ (cols gutter : JSVal) (st : MasonryState) (iw : Option ℚ),
      1 ≤ st.displayColumns →
      1 ≤ (reCalculate cols gutter st iw).state.displayColumns := by
  refine ⟨by norm_num [initialData], ?_⟩
  intro cols gutter st iw h
  simp only [reCalculate]
  split
  · exact h
  · split
    · exact h
    · split <;> exact le_max_left 1 _

/-- Witness for C6 at a concrete input: starting from the initial data, a
recalculation with a degenerate configured column count of 0 still yields
`displayColumns ≥ 1`. -/
theorem c6_witness :
    1 ≤ (reCalculate (JSVal.num 0) (JSVal.num 0) initialData (some 800)).state.displayColumns :=
  c6_displayColumns_ge_one.2 (JSVal.num 0) (JSVal.num 0) initialData (some 800)
    (by norm_num [initialData])

/-- C6 counterexample: with `cols = 2.5` (a legal value for the
`[Object, Number, String]`-typed prop) the recalculation stores
`displayColumns = 2.5`, which is not an integer — `Math.max(1, Number(x) || 0)`
clamps from below but does not round. -/
theorem c6_counterexample_not_integer :
    (reCalculate (JSVal.num (mkRat 5 2)) (JSVal.num 0) initialData
        (some 800)).state.displayColumns = mkRat 5 2 ∧
    (reCalculate (JSVal.num (mkRat 5 2)) (JSVal.num 0) initialData
        (some 800)).recalculated = true ∧
    ∀ n : ℤ, mkRat 5 2 ≠ (n : ℚ) := by
  refine ⟨rfl, rfl, ?_⟩
  intro n h
  have h2 := congrArg Rat.den h
  rw [Rat.den_intCast] at h2
  exact absurd h2 (by decide)

/-- C8: the code does not satisfy the no-throw claim — `breakpointValue(null, w)`
throws a `TypeError` (`typeof null === 'object'`, so the non-object guard does
not fire and `mixed.default` is read from `null`).  For every other value the
claim holds: resolution returns a result for every non-`null` configured
value, and recalculation propagates no exception when `cols` and `gutter` are
not `null`. -/
theorem c8_resolution_throws_on_null :
    breakpointValue .null ((100 : ℚ) : Width) = .error "TypeError" ∧
    (∀ (mixed : JSVal) (W : Width), mixed ≠ .null →
        ∃ v, breakpointValue mixed W = .ok v) ∧
    (∀ (cols gutter : JSVal) (st : MasonryState) (iw : Option ℚ),
        cols ≠ .null → gutter ≠ .null →
        (reCalculate cols gutter st iw).error = none) := by
  refine ⟨rfl, breakpointValue_ok_of_ne_null, ?_⟩
  intro cols gutter st iw hc hg
  obtain ⟨vc, hvc⟩ := breakpointValue_ok_of_ne_null cols (effWidth iw) hc
  obtain ⟨vg, hvg⟩ := breakpointValue_ok_of_ne_null gutter (effWidth iw) hg
  simp only [reCalculate]
  split
  · rfl
  · rw [hvc, hvg]

/-- Witness for C8 at a concrete input: a numeric configured value resolves
without throwing, and a full recalculation with non-`null` props reports no
error. -/
theorem c8_witness :
    (∃ v, breakpointValue (JSVal.num 5) ((10 : ℚ) : Width) = .ok v) ∧
    (reCalculate (JSVal.num 3) (JSVal.num 0) initialData (some 800)).error = none :=
  ⟨c8_resolution_throws_on_null.2.1 (JSVal.num 5) ((10 : ℚ) : Width)
      (fun h => JSVal.noConfusion h),
    c8_resolution_throws_on_null.2.2 (JSVal.num 3) (JSVal.num 0) initialData (some 800)
      (fun h => JSVal.noConfusion h) (fun h => JSVal.noConfusion h)⟩

/-- C5 (amended): a configured value whose `parseInt` is a non-negative
integer is returned unchanged (in particular `resolve(5, W) = 5` for every
width), and every non-`null` configured value that is neither numeric in that
sense nor an object resolves to `0`.  The original claim fails at `null`, see
the counterexample. -/
theorem c5_scalar_passthrough :
    (∀ (mixed : JSVal) (W : Width) (n : ℤ),
        jsParseIntVal mixed = some n → -1 < n →
        breakpointValue mixed W = .ok mixed)
    ∧ (∀ W : Width, breakpointValue (.num 5) W = .ok (.num 5))
    ∧ (∀ (mixed : JSVal) (W : Width), mixed ≠ .null →
        (∀ entries, mixed ≠ .obj entries) →
        (∀ n : ℤ, jsParseIntVal mixed = some n → n ≤ -1) →
        breakpointValue mixed W = .ok (.num 0)) := by
  refine ⟨breakpointValue_pass, fun W => breakpointValue_pass (.num 5) W 5 rfl (by decide), ?_⟩
  intro mixed W hnull hobj hneg
  have hguard : (match jsParseIntVal mixed with
      | some n => decide (-1 < n)
      | none => false) = false := by
    cases hp : jsParseIntVal mixed with
    | none => rfl
    | some n =>
        have := hneg n hp
        simp only [decide_eq_false_iff_not, not_lt]
        omega
  have htype : typeofIsObject mixed = false := by
    cases mixed with
    | null => exact absurd rfl hnull
    | obj entries => exact absurd rfl (hobj entries)
    | num q => rfl
    | str s => rfl
    | bool b => rfl
    | undefined => rfl
  simp [breakpointValue, hguard, htype]

/-- Witness for C5 at concrete inputs: `resolve(5, 100) = 5` and a plain
non-numeric string resolves to `0`. -/
theorem c5_witness :
    breakpointValue (.num 5) ((100 : ℚ) : Width) = .ok (.num 5) ∧
    breakpointValue (.str "abc") ((100 : ℚ) : Width) = .ok (.num 0) :=
  ⟨c5_scalar_passthrough.2.1 ((100 : ℚ) : Width),
    c5_scalar_passthrough.2.2 (.str "abc") ((100 : ℚ) : Width)
      (fun h => JSVal.noConfusion h)
      (fun _ h => JSVal.noConfusion h)
      (fun n h => by simp [jsParseIntVal] at h; rw [show jsParseIntStr "abc" = none from rfl] at h; exact absurd h (by simp))⟩

/-- C5 counterexample: `null` is neither numeric nor a keyed mapping, yet
`resolve(null, 100)` does not return `0` — it throws. -/
theorem c5_counterexample_null :
    breakpointValue .null ((100 : ℚ) : Width) = .error "TypeError" ∧
    ∀ v : JSVal, (Except.error "TypeError" : Except String JSVal) ≠ .ok v :=
  ⟨rfl, fun _ h => Except.noConfusion h⟩

/-- C3: with `fillGaps` off, the filtered child at position `i` lands in
column `i mod columnCount`; every bucket consists of exactly the filtered
children with that residue, in input order (order preservation; the
distributor is a pure function of its inputs, hence deterministic), and the
six-children, two-column example yields `[[c0,c2,c4],[c1,c3,c5]]`. -/
theorem c3_round_robin :
    (∀ (children : List VNode) (cc j : ℕ), 1 ≤ cc → j < cc →
        bucketAt (getChildItemsInColumnsArray children cc false) j =
          rrBucket ((unwrapTransitionGroup children).filter
            (fun v => tagTruthy v.tag)) cc j)
    ∧ getChildItemsInColumnsArray exSix 2 false =
        [some [cn "c0", cn "c2", cn "c4"], some [cn "c1", cn "c3", cn "c5"]] := by
  refine ⟨?_, rfl⟩
  intro children cc j _ _
  show bucketAt (childItemsAux false cc
      ((unwrapTransitionGroup children).filter (fun v => tagTruthy v.tag)) 0
      ⟨[], List.replicate cc 0⟩).columns j = _
  rw [aux_false_bucket]
  simp [bucketAt, colAt, rrBucket, List.enum]

/-- Witness for C3 at a concrete input: bucket 0 of six children over two
columns is exactly the even-position children. -/
theorem c3_witness :
    bucketAt (getChildItemsInColumnsArray exSix 2 false) 0 =
      rrBucket ((unwrapTransitionGroup exSix).filter (fun v => tagTruthy v.tag)) 2 0 :=
  c3_round_robin.1 exSix 2 0 (by decide) (by decide)

/-- C7 (amended): the returned columns array has at most `columnCount` slots,
but not always exactly `columnCount`: slots are created lazily at the indices
actually assigned, so with `fillGaps` off its length is
`min (number of filtered children) columnCount` — fewer children than columns
yield a shorter array, not empty buckets (see the counterexample). -/
theorem c7_bucket_count :
    (∀ (children : List VNode) (cc : ℕ) (fg : Bool), 1 ≤ cc →
        (getChildItemsInColumnsArray children cc fg).length ≤ cc)
    ∧ (∀ (children : List VNode) (cc : ℕ), 1 ≤ cc →
        (getChildItemsInColumnsArray children cc false).length =
          min ((unwrapTransitionGroup children).filter
            (fun v => tagTruthy v.tag)).length cc) := by
  constructor
  · intro children cc fg hcc
    show (childItemsAux fg cc
        ((unwrapTransitionGroup children).filter (fun v => tagTruthy v.tag)) 0
        ⟨[], List.replicate cc 0⟩).columns.length ≤ cc
    exact aux_columns_le fg cc hcc _ 0 _ (by simp) (by simp)
  · intro children cc hcc
    show (childItemsAux false cc
        ((unwrapTransitionGroup children).filter (fun v => tagTruthy v.tag)) 0
        ⟨[], List.replicate cc 0⟩).columns.length = _
    have h := aux_false_length cc hcc
      ((unwrapTransitionGroup children).filter (fun v => tagTruthy v.tag)) 0
      ⟨[], List.replicate cc 0⟩ (by simp)
    simpa using h

/-- Witness for C7 at concrete inputs: six children over two columns give a
length-2 array; one child over three columns gives the length `min 1 3`. -/
theorem c7_witness :
    (getChildItemsInColumnsArray exSix 2 false).length ≤ 2 ∧
    (getChildItemsInColumnsArray [cn "c0"] 3 false).length =
      min ((unwrapTransitionGroup [cn "c0"]).filter (fun v => tagTruthy v.tag)).length 3 :=
  ⟨c7_bucket_count.1 exSix 2 false (by decide),
    c7_bucket_count.2 [cn "c0"] 3 (by decide)⟩

/-- C7 counterexample: one filtered child distributed over three columns
produces a columns array of length 1, not `columnCount = 3` — the two unused
columns are simply absent rather than present-but-empty. -/
theorem c7_counterexample_lazy_columns :
    (getChildItemsInColumnsArray [cn "c0"] 3 false).length = 1 ∧ (1 : ℕ) ≠ 3 :=
  ⟨rfl, by decide⟩

/-- Gap-filling distribution, step by step: the source recursion with explicit
index equals the fold of the claim-side step function over the enumerated
children, whenever the heights accumulator has (positive) length `cc`. -/
theorem aux_true_spec (cc : ℕ) :
    ∀ (l : List VNode) (idx : ℕ) (st : DistState),
      st.heights.length = cc → 0 < cc →
      childItemsAux true cc l idx st =
        (List.enumFrom idx l).foldl (specFillStep cc) st := by
  intro l
  induction l with
  | nil => intro idx st _ _; rfl
  | cons v rest ih =>
      intro idx st hh hcc
      rw [show List.enumFrom idx (v :: rest) =
        (idx, v) :: List.enumFrom (idx + 1) rest from rfl, List.foldl_cons]
      cases hv : v.elm with
      | none =>
          have hstep : childItemsAux true cc (v :: rest) idx st =
              childItemsAux true cc rest (idx + 1)
                ⟨pushAt st.columns (idx % cc) v, st.heights⟩ := by
            simp [childItemsAux, hv]
          have hspec : specFillStep cc st (idx, v) =
              ⟨pushAt st.columns (idx % cc) v, st.heights⟩ := by
            simp [specFillStep, hv]
          rw [hstep, hspec]
          exact ih (idx + 1) _ hh hcc
      | some hgt =>
          have hne : st.heights ≠ [] := by
            intro h0
            rw [h0] at hh
            simp at hh
            omega
          have hg := gsci_eq_firstMinIdx st.heights hne
          have hstep : childItemsAux true cc (v :: rest) idx st =
              childItemsAux true cc rest (idx + 1)
                ⟨pushAt st.columns (firstMinIdx st.heights) v,
                  addAt st.heights (firstMinIdx st.heights) hgt⟩ := by
            simp [childItemsAux, hv, hg]
          have hspec : specFillStep cc st (idx, v) =
              ⟨pushAt st.columns (firstMinIdx st.heights) v,
                addAt st.heights (firstMinIdx st.heights) hgt⟩ := by
            simp [specFillStep, hv]
          rw [hstep, hspec]
          exact ih (idx + 1) _ (by simp [addAt, hh]) hcc

/-- C2: with `fillGaps` on, each filtered child with a measured height goes to
the column whose accumulator is minimal (first minimum scanning left to
right — `getShortestColumnIndex` returns exactly the first-minimum index) and
that accumulator grows by exactly the measured height; a child without a
measured height is placed round-robin by its filtered index with no
accumulator update.  The source distribution equals the claim-side fold, and
the `[5,1,1]`-heights, two-column example proceeds `c0 → column 0`
(accumulators `[5,0]`), `c1 → column 1` (`[5,1]`), `c2 → column 1`
(`[5,2]`). -/
theorem c2_fill_gaps_follows_spec :
    (∀ (children : List VNode) (cc : ℕ), 1 ≤ cc →
        getChildItemsInColumnsArray children cc true =
          (specDistributeFill cc ((unwrapTransitionGroup children).filter
            (fun v => tagTruthy v.tag))).columns)
    ∧ (∀ heights : List ℤ, heights ≠ [] →
        getShortestColumnIndex heights = some (firstMinIdx heights))
    ∧ childItemsAux true 2 [cm "c0" 5] 0 ⟨[], [0, 0]⟩ =
        ⟨[some [cm "c0" 5]], [5, 0]⟩
    ∧ childItemsAux true 2 [cm "c0" 5, cm "c1" 1] 0 ⟨[], [0, 0]⟩ =
        ⟨[some [cm "c0" 5], some [cm "c1" 1]], [5, 1]⟩
    ∧ childItemsAux true 2 exFill 0 ⟨[], [0, 0]⟩ =
        ⟨[some [cm "c0" 5], some [cm "c1" 1, cm "c2" 1]], [5, 2]⟩ := by
  refine ⟨?_, gsci_eq_firstMinIdx, rfl, rfl, rfl⟩
  intro children cc hcc
  show (childItemsAux true cc
      ((unwrapTransitionGroup children).filter (fun v => tagTruthy v.tag)) 0
      ⟨[], List.replicate cc 0⟩).columns = _
  rw [aux_true_spec cc _ 0 _ (by simp) hcc]
  rfl

/-- Tightening the bound: the candidates below a smaller bound `bp < mb` are
exactly the candidates below `mb` filtered by `< bp`. -/
theorem cands_tighten (entries : List (String × JSVal)) (W : Width)
    (l : List (String × JSVal)) (bp : ℤ) (mb : WithTop ℤ)
    (h : (bp : WithTop ℤ) < mb) :
    cands entries W l (bp : WithTop ℤ) =
      (cands entries W l mb).filter
        (fun c => decide ((c.1 : WithTop ℤ) < (bp : WithTop ℤ))) := by
  simp only [cands, List.filter_filter]
  refine List.filter_congr ?_
  intro c _
  by_cases h1 : W ≤ ((c.1 : ℚ) : Width) <;>
    by_cases h2 : (c.1 : WithTop ℤ) < (bp : WithTop ℤ)
  · have h3 : (c.1 : WithTop ℤ) < mb := lt_trans h2 h
    simp [h1, h2, h3]
  · simp [h1, h2]
  · simp [h1]
  · simp [h1]

/-- Searching for a key below the filter bound commutes with the filter. -/
theorem find?_filter_keylt (m bp : ℤ) (hm : m < bp) :
    ∀ cs : List (ℤ × JSVal),
      ((cs.filter (fun c => decide ((c.1 : WithTop ℤ) < (bp : WithTop ℤ)))).find?
        (fun c => c.1 == m)) = cs.find? (fun c => c.1 == m) := by
  intro cs
  rw [List.find?_filter]
  congr 1
  funext a
  by_cases ha : a.1 = m
  · simp [ha, hm]
  · simp [ha]

/-- The `breakpointValue` loop computes the winning candidate: among the
surviving iterations with breakpoint `≥ width` and below the initial bound,
the raw value carried by the minimal breakpoint — or the initial
`matchedValue` when there is none. -/
theorem bpFold_eq_candMin (entries : List (String × JSVal)) (W : Width) :
    ∀ (l : List (String × JSVal)) (mb : WithTop ℤ) (mv : JSVal),
      bpFold entries W l mb mv =
        match candMin entries W l mb with
        | none => mv
        | some c => c.2 := by
  intro l
  induction l with
  | nil => intro mb mv; rfl
  | cons e l ih =>
      intro mb mv
      cases hc : candOf entries e.1 with
      | none =>
          have hcands : cands entries W (e :: l) mb = cands entries W l mb := by
            simp [cands, List.filterMap_cons, hc]
          simp only [bpFold, hc]
          rw [ih]
          simp only [candMin, hcands]
      | some c =>
          obtain ⟨bp, raw⟩ := c
          by_cases hcond : W ≤ ((bp : ℚ) : Width) ∧ (bp : WithTop ℤ) < mb
          · simp only [bpFold, hc, if_pos hcond]
            rw [ih]
            have hcands : cands entries W (e :: l) mb =
                (bp, raw) :: cands entries W l mb := by
              simp [cands, List.filterMap_cons, hc, List.filter_cons,
                hcond.1, hcond.2]
            cases hK : olistMin ((cands entries W l mb).map Prod.fst) with
            | none =>
                have hnil : cands entries W l mb = [] := by
                  cases hcl : cands entries W l mb with
                  | nil => rfl
                  | cons d ds => rw [hcl] at hK; simp [olistMin] at hK
                have hbp : cands entries W l (bp : WithTop ℤ) = [] := by
                  rw [cands_tighten entries W l bp mb hcond.2, hnil]
                  rfl
                have hl2 : candMin entries W l (bp : WithTop ℤ) = none := by
                  simp [candMin, hbp, olistMin]
                have hr : candMin entries W (e :: l) mb = some (bp, raw) := by
                  simp [candMin, hcands, hnil, olistMin, List.find?_cons]
                rw [hl2, hr]
            | some m =>
                have hcomb : olistMin ((cands entries W (e :: l) mb).map Prod.fst) =
                    some (min bp m) := by
                  rw [hcands]
                  simp [olistMin, hK]
                by_cases hmbp : m < bp
                · obtain ⟨hmm, hmin⟩ := (olistMin_eq_some_iff _ m).mp hK
                  obtain ⟨c₀mem, hc₀mem, hc₀fst⟩ := List.mem_map.mp hmm
                  have hfindSome : ((cands entries W l mb).find?
                      (fun c => c.1 == m)).isSome = true := by
                    rw [List.find?_isSome]
                    exact ⟨c₀mem, hc₀mem, by simp [hc₀fst]⟩
                  obtain ⟨c₀, hc₀⟩ := Option.isSome_iff_exists.mp hfindSome
                  have hkeys : (cands entries W l (bp : WithTop ℤ)).map Prod.fst =
                      ((cands entries W l mb).map Prod.fst).filter
                        (fun k : ℤ => decide ((k : WithTop ℤ) < (bp : WithTop ℤ))) := by
                    rw [cands_tighten entries W l bp mb hcond.2]
                    exact (@List.filter_map (ℤ × JSVal) ℤ
                      (fun k : ℤ => decide ((k : WithTop ℤ) < (bp : WithTop ℤ)))
                      Prod.fst (cands entries W l mb)).symm
                  have hminf : olistMin ((cands entries W l (bp : WithTop ℤ)).map
                      Prod.fst) = some m := by
                    rw [hkeys, olistMin_eq_some_iff]
                    refine ⟨?_, ?_⟩
                    · rw [List.mem_filter]
                      refine ⟨hmm, ?_⟩
                      simp only [decide_eq_true_eq]
                      exact WithTop.coe_lt_coe.mpr hmbp
                    · intro x hx
                      exact hmin x (List.mem_filter.mp hx).1
                  have hfindf : (cands entries W l (bp : WithTop ℤ)).find?
                      (fun c => c.1 == m) =
                      (cands entries W l mb).find? (fun c => c.1 == m) := by
                    rw [cands_tighten entries W l bp mb hcond.2]
                    exact find?_filter_keylt m bp hmbp _
                  have hl2 : candMin entries W l (bp : WithTop ℤ) = some c₀ := by
                    simp only [candMin, hminf, hfindf]
                    exact hc₀
                  have hbpne : (bp == m) = false := by
                    rw [beq_eq_false_iff_ne]
                    omega
                  have hcomb2 : olistMin (bp :: (cands entries W l mb).map
                      Prod.fst) = some m := by
                    simp only [olistMin, hK]
                    rw [min_eq_right (le_of_lt hmbp)]
                  have hr : candMin entries W (e :: l) mb = some c₀ := by
                    simp only [candMin, hcands, List.map_cons, hcomb2,
                      List.find?_cons, hbpne]
                    exact hc₀
                  rw [hl2, hr]
                · have hble : bp ≤ m := not_lt.mp hmbp
                  have hcomb2 : olistMin (bp :: (cands entries W l mb).map
                      Prod.fst) = some bp := by
                    simp only [olistMin, hK]
                    rw [min_eq_left hble]
                  have hr : candMin entries W (e :: l) mb = some (bp, raw) := by
                    simp only [candMin, hcands, List.map_cons, hcomb2,
                      List.find?_cons]
                    simp
                  obtain ⟨_, hmin⟩ := (olistMin_eq_some_iff _ m).mp hK
                  have hnilf : cands entries W l (bp : WithTop ℤ) = [] := by
                    rw [cands_tighten entries W l bp mb hcond.2,
                      List.filter_eq_nil_iff]
                    intro c hcmem
                    have hck : c.1 ∈ (cands entries W l mb).map Prod.fst :=
                      List.mem_map.mpr ⟨c, hcmem, rfl⟩
                    have hmc : m ≤ c.1 := hmin _ hck
                    simp only [decide_eq_true_eq, WithTop.coe_lt_coe]
                    omega
                  have hl2 : candMin entries W l (bp : WithTop ℤ) = none := by
                    simp [candMin, hnilf, olistMin]
                  rw [hl2, hr]
          · simp only [bpFold, hc, if_neg hcond]
            rw [ih]
            have hpred : ¬((decide (W ≤ ((bp : ℚ) : Width)) &&
                decide ((bp : WithTop ℤ) < mb)) = true) := by
              simpa [Bool.and_eq_true, decide_eq_true_eq] using hcond
            have hcands : cands entries W (e :: l) mb = cands entries W l mb := by
              simp only [cands, List.filterMap_cons, hc, List.filter_cons]
              rw [if_neg hpred]
            simp only [candMin, hcands]

/-- On an object, `breakpointValue` runs the key loop (the `parseInt` guard
cannot fire and `typeof` is `'object'`). -/
theorem breakpointValue_obj (entries : List (String × JSVal)) (W : Width) :
    breakpointValue (.obj entries) W =
      .ok (bpFold entries W entries ⊤ (jsOr (objGet entries "default") (.num 0))) := rfl

/-- When no surviving loop iteration has a breakpoint `≥ width`, the loop
falls back to `mixed.default || 0`. -/
theorem bpv_obj_no_match (entries : List (String × JSVal)) (W : Width)
    (h : ∀ e ∈ entries, ∀ bp raw, candOf entries e.1 = some (bp, raw) →
      ¬ W ≤ ((bp : ℚ) : Width)) :
    breakpointValue (.obj entries) W =
      .ok (jsOr (objGet entries "default") (.num 0)) := by
  rw [breakpointValue_obj, bpFold_eq_candMin]
  have hnil : cands entries W entries ⊤ = [] := by
    rw [cands, List.filter_eq_nil_iff]
    intro c hcmem
    rw [List.mem_filterMap] at hcmem
    obtain ⟨e, hemem, hcand⟩ := hcmem
    obtain ⟨bp, raw⟩ := c
    have hnle := h e hemem bp raw hcand
    simp only [Bool.and_eq_true, decide_eq_true_eq]
    rintro ⟨h1, _⟩
    exact hnle h1
  simp [candMin, hnil, olistMin]

/-- Property access on a cons cell. -/
theorem objGet_cons (k' : String) (v' : JSVal) (rest : List (String × JSVal))
    (k : String) :
    objGet ((k', v') :: rest) k = if k' = k then v' else objGet rest k := by
  by_cases h : k' = k
  · simp [objGet, List.find?_cons, h]
  · simp [objGet, List.find?_cons, h]

/-- With duplicate-free keys, property access returns the entry's own value. -/
theorem objGet_of_nodup :
    ∀ (entries : List (String × JSVal)) (k : String) (v : JSVal),
      (entries.map Prod.fst).Nodup → (k, v) ∈ entries → objGet entries k = v := by
  intro entries
  induction entries with
  | nil => intro k v _ h; simp at h
  | cons e rest ih =>
      intro k v hnd hmem
      obtain ⟨k', v'⟩ := e
      rw [List.map_cons, List.nodup_cons] at hnd
      obtain ⟨hnotin, hnd'⟩ := hnd
      rw [objGet_cons]
      rcases List.mem_cons.mp hmem with heq | hmem'
      · injection heq with h1 h2
        subst h1
        subst h2
        rw [if_pos rfl]
      · by_cases hkk : k' = k
        · exfalso
          apply hnotin
          rw [hkk]
          exact List.mem_map.mpr ⟨(k, v), hmem', rfl⟩
        · rw [if_neg hkk]
          exact ih k v hnd' hmem'

/-- Under canonical, duplicate-free keys, one loop iteration computes exactly
what the claim describes for the entry itself: keep it iff the key parses and
the entry's own value parses, with that very value as the raw result. -/
theorem candOf_canonical (entries : List (String × JSVal))
    (hnd : (entries.map Prod.fst).Nodup)
    (hcanon : entries.all (fun e => canonicalKey e.1) = true) :
    ∀ e ∈ entries, candOf entries e.1 =
      if claimValid e then some (claimKey e, e.2) else none := by
  intro e hmem
  obtain ⟨k, v⟩ := e
  cases hp : jsParseIntStr k with
  | none => simp [candOf, hp, claimValid]
  | some bp =>
      have hcanonk : canonicalKey k = true := by
        simpa using List.all_eq_true.mp hcanon (k, v) hmem
      have hts : toString bp = k := by
        simp only [canonicalKey, hp] at hcanonk
        exact eq_of_beq hcanonk
      have hobj : objGet entries (toString bp) = v := by
        rw [hts]
        exact objGet_of_nodup entries k v hnd hmem
      simp only [candOf, hp, hobj]
      cases hv : jsParseIntVal v with
      | none => simp [claimValid, hp, hv]
      | some nv => simp [claimValid, claimKey, hp, hv]

/-- Under canonical, duplicate-free keys, the surviving loop iterations over a
sublist are the claim's kept entries, tagged with their parsed keys. -/
theorem filterMap_cand_bridge (entries : List (String × JSVal))
    (hnd : (entries.map Prod.fst).Nodup)
    (hcanon : entries.all (fun e => canonicalKey e.1) = true) :
    ∀ l : List (String × JSVal), (∀ e ∈ l, e ∈ entries) →
      l.filterMap (fun e => candOf entries e.1) =
        (l.filter claimValid).map (fun e => (claimKey e, e.2)) := by
  intro l
  induction l with
  | nil => intro _; rfl
  | cons e rest ih =>
      intro hsub
      have he : e ∈ entries := hsub e (List.mem_cons_self e rest)
      have hrest : ∀ x ∈ rest, x ∈ entries :=
        fun x hx => hsub x (List.mem_cons_of_mem e hx)
      rw [List.filterMap_cons, candOf_canonical entries hnd hcanon e he,
        List.filter_cons]
      by_cases hval : claimValid e = true
      · simp [hval, ih hrest]
      · simp [hval, ih hrest]

/-- C4 (amended): when no surviving breakpoint is `≥ width` — in particular
for `width = Infinity`, and for the infinite width a host without a viewport
facility defaults to — resolution returns `default || 0`: the `default` entry
when present and truthy, else the scalar `0` (a present-but-falsy `default`
such as `""` is replaced by `0`; see the counterexample). -/
theorem c4_no_match_default :
    (∀ (entries : List (String × JSVal)) (W : Width),
        (∀ e ∈ entries, ∀ bp raw, candOf entries e.1 = some (bp, raw) →
          ¬ W ≤ ((bp : ℚ) : Width)) →
        breakpointValue (.obj entries) W =
          .ok (jsOr (objGet entries "default") (.num 0)))
    ∧ (∀ entries, breakpointValue (.obj entries) (⊤ : Width) =
        .ok (jsOr (objGet entries "default") (.num 0)))
    ∧ (∀ entries, breakpointValue (.obj entries) (effWidth none) =
        .ok (jsOr (objGet entries "default") (.num 0))) := by
  have htop : ∀ entries, breakpointValue (.obj entries) (⊤ : Width) =
      .ok (jsOr (objGet entries "default") (.num 0)) := by
    intro entries
    refine bpv_obj_no_match entries ⊤ ?_
    intro e _ bp raw _ hle
    exact absurd (top_le_iff.mp hle) (WithTop.coe_ne_top)
  exact ⟨bpv_obj_no_match, htop, fun entries => htop entries⟩

/-- Witness for C4 at a concrete input: a mapping with only a `default` entry
has no breakpoint at all, so any width resolves to the default. -/
theorem c4_witness :
    breakpointValue (.obj [("default", JSVal.num 4)]) ((100 : ℚ) : Width) =
      .ok (jsOr (objGet [("default", JSVal.num 4)] "default") (.num 0)) :=
  c4_no_match_default.1 [("default", JSVal.num 4)] ((100 : ℚ) : Width)
    (fun e he bp raw hc => by
      simp only [List.mem_singleton] at he
      subst he
      exact Option.noConfusion hc)

/-- C4 counterexample: with `{default: ""}` the default entry is present, but
resolution returns the scalar `0` rather than the entry — `mixed.default || 0`
discards a falsy default. -/
theorem c4_counterexample_falsy_default :
    objGet [("default", JSVal.str "")] "default" = .str "" ∧
    breakpointValue (.obj [("default", .str "")]) ((100 : ℚ) : Width) =
      .ok (.num 0) ∧
    JSVal.num 0 ≠ .str "" :=
  ⟨rfl, rfl, fun h => JSVal.noConfusion h⟩

/-- Witness for C2 at concrete inputs: the three-children example satisfies
the fold equality, and the scan on accumulators `[5, 0]` picks column 1. -/
theorem c2_witness :
    getChildItemsInColumnsArray exFill 2 true =
      (specDistributeFill 2 ((unwrapTransitionGroup exFill).filter
        (fun v => tagTruthy v.tag))).columns ∧
    getShortestColumnIndex [5, 0] = some (firstMinIdx [5, 0]) :=
  ⟨c2_fill_gaps_follows_spec.1 exFill 2 (by decide),
    c2_fill_gaps_follows_spec.2.1 [5, 0] (by simp)⟩

/-- C1 (amended): for a mapping whose keys are duplicate-free and canonical
(each key that `parseInt` accepts is exactly the decimal string of its parsed
integer — the loop looks the raw value up at `mixed[parseInt(k)]`, so a
non-canonical numeric key like `"007"` or `"300px"` misses its own entry, see
the counterexample), resolution returns exactly what the claim describes:
skip entries whose key or own value fails `parseInt`, and among the kept
entries return the raw value of the smallest key `≥ width`; in particular
`resolve({default: 4, abc: 9, 300: 5}, 100)` skips `abc` and returns `5`. -/
theorem c1_resolution_minimal_breakpoint :
    (∀ (entries : List (String × JSVal)) (W : Width) (v : JSVal),
        (entries.map Prod.fst).Nodup →
        entries.all (fun e => canonicalKey e.1) = true →
        specC1Resolve entries W = some v →
        breakpointValue (.obj entries) W = .ok v)
    ∧ breakpointValue (.obj [("default", .num 4), ("abc", .num 9), ("300", .num 5)])
        ((100 : ℚ) : Width) = .ok (.num 5) := by
  refine ⟨?_, rfl⟩
  intro entries W v hnd hcanon hres
  rw [breakpointValue_obj, bpFold_eq_candMin]
  have hbridge : cands entries W entries ⊤ =
      (claimMatches entries W).map (fun e => (claimKey e, e.2)) := by
    rw [cands, filterMap_cand_bridge entries hnd hcanon entries (fun e he => he),
      List.filter_map]
    rw [claimMatches]
    congr 1
    refine List.filter_congr ?_
    intro e _
    show (decide (W ≤ ((claimKey e : ℚ) : Width)) &&
        decide ((claimKey e : WithTop ℤ) < ⊤)) =
      decide (W ≤ ((claimKey e : ℚ) : Width))
    simp [WithTop.coe_lt_top]
  have hkeys : (cands entries W entries ⊤).map Prod.fst =
      (claimMatches entries W).map claimKey := by
    rw [hbridge, List.map_map]
    rfl
  rw [specC1Resolve] at hres
  cases hmin : olistMin ((claimMatches entries W).map claimKey) with
  | none =>
      rw [hmin] at hres
      exact Option.noConfusion hres
  | some m =>
      rw [hmin] at hres
      have hres2 : Option.map Prod.snd ((claimMatches entries W).find?
          (fun e => claimKey e == m)) = some v := hres
      cases hfind : (claimMatches entries W).find? (fun e => claimKey e == m) with
      | none =>
          rw [hfind] at hres2
          exact Option.noConfusion hres2
      | some e₀ =>
          rw [hfind] at hres2
          have hv : e₀.2 = v := by
            simpa using hres2
          have hminc : olistMin ((cands entries W entries ⊤).map Prod.fst) =
              some m := by
            rw [hkeys]
            exact hmin
          have hfindc : (cands entries W entries ⊤).find? (fun c => c.1 == m) =
              some (claimKey e₀, e₀.2) := by
            rw [hbridge, List.find?_map]
            rw [show ((fun c : ℤ × JSVal => c.1 == m) ∘
              fun e : String × JSVal => (claimKey e, e.2)) =
              fun e : String × JSVal => claimKey e == m from rfl]
            rw [hfind]
            rfl
          have hcand : candMin entries W entries ⊤ = some (claimKey e₀, e₀.2) := by
            simp only [candMin, hminc, hfindc]
          rw [hcand, hv]

/-- Witness for C1 at a concrete input: `{0: 1, 600: 2}` at width 0 resolves
to the value of the smallest matching breakpoint. -/
theorem c1_witness :
    breakpointValue (.obj [("0", JSVal.num 1), ("600", JSVal.num 2)])
      ((0 : ℚ) : Width) = .ok (.num 1) :=
  c1_resolution_minimal_breakpoint.1 [("0", JSVal.num 1), ("600", JSVal.num 2)]
    ((0 : ℚ) : Width) (.num 1) (by decide) (by decide) rfl

/-- C1 counterexample: the key `"007"` parses (via `parseInt`) to `7` and its
value `5` parses, so the claim keeps the entry and mandates the result `5` at
width 3; the code instead looks the value up at `mixed[7]`, i.e. key `"7"`,
misses, skips the entry, and returns `0`. -/
theorem c1_counterexample_noncanonical_key :
    specC1Resolve [("007", JSVal.num 5)] ((3 : ℚ) : Width) = some (JSVal.num 5) ∧
    breakpointValue (.obj [("007", JSVal.num 5)]) ((3 : ℚ) : Width) =
      .ok (.num 0) ∧
    JSVal.num 0 ≠ JSVal.num 5 := by
  refine ⟨rfl, rfl, ?_⟩
  intro h
  injection h with h2
  norm_num at h2

end Masonry
